import Mathlib

/-!
Verification of `liusseka/alx-backend-user-data`.

This file gives a shallow embedding in Lean 4 of the three source modules

  * `0x00-personal_data/encrypt_password.py` — `hash_password` / `is_valid`,
    thin wrappers over the `bcrypt` library (`gensalt`, `hashpw`, `checkpw`);
  * `0x02-Session_authentication/models/user_session.py` — `UserSession`;
  * `0x00-personal_data/filtered_logger.py` — `filter_datum`;

and proves or refutes the specification claims about them.

Conventions of the embedding:

  * byte strings are `List Nat` (each entry one byte);
  * a Python exception is a value of `PyError`, and a fallible Python call
    returns `Except PyError α`;
  * the randomness consumed by `bcrypt.gensalt()` (16 CSPRNG bytes, presented
    here already in their bcrypt-base64 encoded form of 22 characters) is an
    explicit input `randomChars`;
  * the EksBlowfish core of bcrypt is not re-implemented: it is an explicit
    function parameter `digest : Bytes → SaltSpec → Bytes`.  All theorems
    quantify over `digest`, so they hold for the real cipher; concrete
    witnesses instantiate it with `sampleDigest`.
-/

/-! ## Python-level error values -/

/-- An exception raised by the modelled Python code.  The repository defines
no exception classes of its own; the exceptions that can actually occur in
the modelled fragment are the `ValueError`s raised inside the `bcrypt`
wrapper functions and `TypeError` (never reachable in the embedding, kept
for fidelity to the wrapper's checks). -/
inductive PyError where
  | valueError (msg : String)
  | typeError (msg : String)
deriving DecidableEq, Repr

/-- Byte strings. -/
abbrev Bytes := List Nat

/-! ## UTF-8 encoding: the model of Python's `str.encode()` -/

/-- UTF-8 encoding of a single code point, as performed by `str.encode()`. -/
def utf8Bytes (c : Char) : Bytes :=
  let n := c.toNat
  if n < 0x80 then [n]
  else if n < 0x800 then
    [0xC0 + n / 0x40, 0x80 + n % 0x40]
  else if n < 0x10000 then
    [0xE0 + n / 0x1000, 0x80 + n / 0x40 % 0x40, 0x80 + n % 0x40]
  else
    [0xF0 + n / 0x40000, 0x80 + n / 0x1000 % 0x40, 0x80 + n / 0x40 % 0x40,
      0x80 + n % 0x40]

/-- Model of Python's `str.encode()`: the UTF-8 bytes of the string. -/
def utf8Encode (s : String) : Bytes :=
  (s.data.map utf8Bytes).flatten

/-! ## Model of the `bcrypt` library (pyca/bcrypt python wrapper)

Only the behaviour visible through `gensalt`, `hashpw` and `checkpw` is
modelled, following the wrapper's documented and published code:
rejection of NUL bytes, truncation of the password to 72 bytes, parsing of
the `$2b$NN$` salt header, and reconstruction of the stored token for the
comparison done by `checkpw`.  The Blowfish-based digest itself is the
abstract parameter `digest`. -/

/-- The 64 characters of the bcrypt radix-64 alphabet `./A-Za-z0-9`,
as byte values. -/
def bcryptAlphabet : Bytes :=
  [46, 47] ++ (List.range 26).map (· + 65) ++ (List.range 26).map (· + 97)
    ++ (List.range 10).map (· + 48)

/-- Whether a byte is a bcrypt radix-64 character. -/
def isB64 (b : Nat) : Prop := b ∈ bcryptAlphabet

instance (b : Nat) : Decidable (isB64 b) := by unfold isB64; infer_instance

/-- The parsed form of a bcrypt salt header: minor version byte (`a` or `b`),
cost factor, and the 22 encoded salt characters. -/
structure SaltSpec where
  minor : Nat
  cost : Nat
  chars : Bytes
deriving DecidableEq, Repr

/-- Cost factor from its two ASCII digits. -/
def costOf (d1 d2 : Nat) : Nat := (d1 - 48) * 10 + (d2 - 48)

/-- Model of the salt parsing done by pyca/bcrypt on the string passed as
`salt` (for `checkpw`, the whole stored token is passed and only this
leading part is read): a `$2` minor `$` prefix with minor version `a`,
`b`, `x` or `y` — the full acceptance set of both backends (the 3.x
wrapper first rewrites a leading `$2y$` to `$2b$` and its bundled C core
accepts `a`/`b`/`x`/`y`; the 4.x Rust backend accepts all four directly) —
then two decimal digits of cost in `4..31`, `$`, and 22 radix-64 salt
characters.  Anything else is an invalid salt.  Byte values: `36 = '$'`,
`50 = '2'`, `97 = 'a'`, `98 = 'b'`, `120 = 'x'`, `121 = 'y'`. -/
def parseSalt (tok : Bytes) : Option SaltSpec :=
  match tok with
  | 36 :: 50 :: v :: 36 :: d1 :: d2 :: 36 :: rest =>
    if (v = 97 ∨ v = 98 ∨ v = 120 ∨ v = 121) ∧
        48 ≤ d1 ∧ d1 ≤ 57 ∧ 48 ≤ d2 ∧ d2 ≤ 57 ∧
        4 ≤ costOf d1 d2 ∧ costOf d1 d2 ≤ 31 ∧
        (rest.take 22).length = 22 ∧ ∀ b ∈ rest.take 22, isB64 b then
      some ⟨v, costOf d1 d2, rest.take 22⟩
    else none
  | _ => none

/-- The stored token that bcrypt builds from a parsed salt header and the
digest: `$2` minor `$` cost digits `$` salt chars, digest.  The minor
version of the parsed header is carried into the output token, as in the
4.x backend; the 3.x wrapper's `$2y$`-to-`$2b$` salt rewrite would instead
emit minor `b` for a `$2y$` salt, a difference visible only in the boolean
value `checkpw` computes on `$2y$`/`$2x$` stored tokens, which no theorem
in this file states. -/
def formatToken (ss : SaltSpec) (dig : Bytes) : Bytes :=
  36 :: 50 :: ss.minor :: 36 :: (48 + ss.cost / 10) :: (48 + ss.cost % 10)
    :: 36 :: (ss.chars ++ dig)

/-- Model of `bcrypt.gensalt()` with the default cost 12 and prefix `2b`:
`$2b$12$` followed by the 22 radix-64 characters encoding the 16 random
bytes.  The encoded random characters are the explicit input. -/
def gensalt (randomChars : Bytes) : Bytes :=
  36 :: 50 :: 98 :: 36 :: 49 :: 50 :: 36 :: randomChars

/-- Model of `bcrypt.hashpw(password, salt)`: reject NUL bytes, truncate the
password to 72 bytes, parse the salt header (raising
`ValueError('Invalid salt')` on failure) and return the formatted token
containing the digest of the truncated password under that header. -/
def hashpw (digest : Bytes → SaltSpec → Bytes) (password salt : Bytes) :
    Except PyError Bytes :=
  if 0 ∈ password ∨ 0 ∈ salt then
    Except.error (PyError.valueError "password and salt may not contain NUL bytes")
  else
    match parseSalt salt with
    | none => Except.error (PyError.valueError "Invalid salt")
    | some ss => Except.ok (formatToken ss (digest (password.take 72) ss))

/-- Model of `bcrypt.checkpw(password, hashed_password)`: reject NUL bytes,
re-hash the password using the stored token as the salt, and compare the
result with the stored token (the wrapper's length check plus
`hmac.compare_digest` amount to equality of the two byte strings; the
constant-time aspect of that comparison has no counterpart in a functional
embedding). -/
def checkpw (digest : Bytes → SaltSpec → Bytes) (password hashed_password : Bytes) :
    Except PyError Bool :=
  if 0 ∈ password ∨ 0 ∈ hashed_password then
    Except.error
      (PyError.valueError "password and hashed_password may not contain NUL bytes")
  else
    match hashpw digest password hashed_password with
    | Except.error e => Except.error e
    | Except.ok ret => Except.ok (ret == hashed_password)

/-! ## Embedding of `encrypt_password.py` -/

/-- Embedding of `hash_password` (src/0x00-personal_data/encrypt_password.py):
`hashpw(password.encode(), bcrypt.gensalt())`. -/
def hash_password (digest : Bytes → SaltSpec → Bytes) (randomChars : Bytes)
    (password : String) : Except PyError Bytes :=
  hashpw digest (utf8Encode password) (gensalt randomChars)

/-- Embedding of the verifier `is_valid` (src/0x00-personal_data/encrypt_password.py):
`bcrypt.checkpw(password.encode(), hashed_password)`. -/
def is_valid (digest : Bytes → SaltSpec → Bytes) (hashed_password : Bytes)
    (password : String) : Except PyError Bool :=
  checkpw digest (utf8Encode password) hashed_password

/-- Hash a secret and verify the very same secret against the produced token:
the composition the spec's round-trip property is about. -/
def roundTrip (digest : Bytes → SaltSpec → Bytes) (randomChars : Bytes)
    (s : String) : Except PyError Bool :=
  match hash_password digest randomChars s with
  | Except.ok h => is_valid digest h s
  | Except.error e => Except.error e

/-- Hash `s1` and verify candidate `s2` against the produced token. -/
def crossCheck (digest : Bytes → SaltSpec → Bytes) (randomChars : Bytes)
    (s1 s2 : String) : Except PyError Bool :=
  match hash_password digest randomChars s1 with
  | Except.ok h => is_valid digest h s2
  | Except.error e => Except.error e

/-- Well-formed output of the random salt generation: 22 bcrypt radix-64
characters. -/
def ValidSalt (rc : Bytes) : Prop := rc.length = 22 ∧ ∀ b ∈ rc, isB64 b

instance (rc : Bytes) : Decidable (ValidSalt rc) := by
  unfold ValidSalt; infer_instance

/-- The parsed form produced by a well-formed salt header. -/
def ValidSpec (ss : SaltSpec) : Prop :=
  (ss.minor = 97 ∨ ss.minor = 98) ∧ 4 ≤ ss.cost ∧ ss.cost ≤ 31 ∧
    ss.chars.length = 22 ∧ ∀ b ∈ ss.chars, isB64 b

/-- A concrete stand-in for the abstract Blowfish digest parameter, used only
to instantiate witnesses and counterexamples; every claim theorem quantifies
over an arbitrary `digest`. -/
def sampleDigest : Bytes → SaltSpec → Bytes := fun pw _ => pw.map (· + 1)

/-- A concrete well-formed value for the 22 encoded random salt characters. -/
def sampleSalt : Bytes := List.replicate 22 65

/-- A second concrete salt value, distinct from `sampleSalt`. -/
def sampleSalt2 : Bytes := List.replicate 22 66

/-- Two distinct secrets agreeing on their first 72 UTF-8 bytes and
differing only in the letter case of the 73rd. -/
def longSecret1 : String := String.mk (List.replicate 72 'a' ++ ['b'])

/-- Case-flipped variant of `longSecret1` beyond the 72nd byte. -/
def longSecret2 : String := String.mk (List.replicate 72 'a' ++ ['B'])

deriving instance DecidableEq for Except

/-! ## Embedding of `models/user_session.py` -/

/-- Embedding of the `UserSession` instance state relevant to the claims:
the two attributes set by `UserSession.__init__`.  A Python attribute value
here is either `None` or a string, modelled as `Option String`. -/
structure UserSession where
  user_id : Option String
  session_id : Option String
deriving DecidableEq

/-- Python's `kwargs.get(key)`: `None` when the key is absent; a present
key may itself carry the value `None`. -/
def kwargsGet (kwargs : List (String × Option String)) (key : String) :
    Option String :=
  match kwargs.lookup key with
  | Option.none => Option.none
  | Option.some v => v

/-- Embedding of `UserSession.__init__`
(src/0x02-Session_authentication/models/user_session.py): it sets
`user_id := kwargs.get('user_id')` and `session_id := kwargs.get('session_id')`
unconditionally, performing no validation; the inherited `Base.__init__`
(models/base.py, not under src/) only assigns bookkeeping fields (id,
timestamps) and is modelled as not touching these two attributes.
The result is wrapped in `Except` to record which exceptions construction
can raise: none. -/
def UserSession.init (kwargs : List (String × Option String)) :
    Except PyError UserSession :=
  Except.ok
    { user_id := kwargsGet kwargs "user_id"
      session_id := kwargsGet kwargs "session_id" }

/-- Modelled from the spec: the operations a constructed Session Record
exposes.  `models/base.py` with any inherited operations is not under src/;
per the spec the public contract is "a plain immutable-after-construction
value with two accessors (`session_id`, `user_id`)", so the post-construction
interface consists of exactly those two accessors. -/
inductive SessionOp where
  | getSessionId
  | getUserId
deriving DecidableEq

/-- Applying an exposed operation to a Session Record: the resulting record
state paired with the value the accessor returns. -/
def applySessionOp (u : UserSession) (op : SessionOp) :
    UserSession × Option String :=
  match op with
  | SessionOp.getSessionId => (u, u.session_id)
  | SessionOp.getUserId => (u, u.user_id)

/-! ## Embedding of `filter_datum` (`filtered_logger.py`)

`filter_datum` loops over the fields and performs, for each `field`,

  `re.sub(field + '=[^' + re.escape(separator) + ']+',
          field + '=' + redaction, message)`.

The model below implements exactly the matching behaviour of this pattern
family: scanning left to right for the leftmost non-overlapping matches of
the field (matched literally — exact for fields without regex
metacharacters), followed by `'='`, followed by a greedy nonempty run of
characters not occurring in the separator string, each match being
replaced by `field ++ "=" ++ redaction` taken literally (exact for
redactions without backslashes; `re.escape` makes the separator literal in
all cases). -/

/-- A character the class `[^separator]` accepts. -/
def nonsep (sep : List Char) (c : Char) : Bool := !sep.contains c

/-- One attempted match of the pattern at the head of `s`: on success,
returns what remains of `s` after the matched region (the literal field,
`'='`, and the greedy nonempty run of non-separator characters). -/
def matchRest (f sep s : List Char) : Option (List Char) :=
  if (f ++ ['=']).isPrefixOf s = true ∧
      (s.drop (f.length + 1)).takeWhile (nonsep sep) ≠ [] then
    some ((s.drop (f.length + 1)).dropWhile (nonsep sep))
  else none

/-- Scanner for the substitution, with an explicit bound `fuel` on the
number of scanning steps so that the recursion is structural (and hence
evaluates inside the kernel); `fuel` is always used with at least the
length of the remaining input, which strictly decreases at every step, so
the `0, _ :: _` case is unreachable. -/
def subFAux (f sep r : List Char) : Nat → List Char → List Char
  | _, [] => []
  | 0, _ :: _ => []
  | fuel + 1, c :: s =>
    match matchRest f sep (c :: s) with
    | some rest => f ++ '=' :: (r ++ subFAux f sep r fuel rest)
    | none => c :: subFAux f sep r fuel s

/-- The substitution `re.sub(field + '=[^sep]+', field + '=' + redaction, s)`
for one field: leftmost-to-right scan, each match replaced, scanning
resuming after the match. -/
def subF (f sep r s : List Char) : List Char :=
  subFAux f sep r s.length s

/-- Embedding of `filter_datum` (src/0x00-personal_data/filtered_logger.py):
the loop `for field in fields: message = re.sub(...)`. -/
def filter_datum (fields : List (List Char)) (redaction : List Char)
    (message : List Char) (separator : List Char) : List Char :=
  fields.foldl (fun msg f => subF f separator redaction msg) message

/-- The regular-expression metacharacters: a field containing one of these
is not matched literally by `re.sub`, so it falls outside the exact domain
of the model (byte values of `. * + ? [ ] ( ) { } | ^ $ \`). -/
def reMeta : List Char :=
  [46, 42, 43, 63, 91, 93, 40, 41, 123, 125, 124, 94, 36, 92].map Char.ofNat

/-- A field that `re.sub` matches literally and that interacts with the
pattern structure in the plain way: nonempty, no regex metacharacters, and
containing neither separator characters nor `'='`. -/
def PlainField (sep f : List Char) : Prop :=
  f ≠ [] ∧ ∀ c ∈ f, c ∉ sep ∧ c ≠ '=' ∧ c ∉ reMeta

/-- A redaction replaced literally by `re.sub` (no backslash) that cannot
re-create pattern structure: no separator characters and no `'='`. -/
def PlainRedaction (sep r : List Char) : Prop :=
  ∀ c ∈ r, c ∉ sep ∧ c ≠ '=' ∧ c ≠ Char.ofNat 92

instance (sep f : List Char) : Decidable (PlainField sep f) := by
  unfold PlainField; infer_instance

instance (sep r : List Char) : Decidable (PlainRedaction sep r) := by
  unfold PlainRedaction; infer_instance

/-- Position of the first match inside a separator-free block: the least
`q` at which `f ++ "="` occurs with at least one character following. -/
def blockPos (f : List Char) : List Char → Option Nat
  | [] => none
  | c :: s' =>
    if (f ++ ['=']).isPrefixOf (c :: s') = true ∧
        f.length + 1 < (c :: s').length then some 0
    else (blockPos f s').map (· + 1)

/-- An occurrence of the pattern's literal part at position `q`. -/
def occAt (f B : List Char) (q : Nat) : Prop :=
  (f ++ ['=']).isPrefixOf (B.drop q) = true

/-- State invariant maintained along a pass of `filter_datum` over a
separator-free block `B`: the current string is a prefix of `B` followed by
nothing (if no field has fired yet) or by the redaction, and no field
processed so far has a qualifying occurrence strictly inside the kept
prefix. -/
def StInv (sep r B : List Char) (pre : List (List Char)) (s : List Char) : Prop :=
  ∃ m t, m ≤ B.length ∧ s = B.take m ++ t ∧
    ((t = [] ∧ m = B.length) ∨ t = r) ∧
    ∀ f ∈ pre, ∀ q, occAt f B q → ¬(q + f.length + 1 < m)

/-! ## Lemmas about the bcrypt model -/

theorem costOf_digits (c : Nat) : costOf (48 + c / 10) (48 + c % 10) = c := by
  unfold costOf
  have := Nat.div_add_mod c 10
  omega

/-- Parsing the leading salt header back out of a formatted token recovers
the header, whatever the digest bytes are. -/
theorem parseSalt_formatToken {ss : SaltSpec} (dig : Bytes) (hv : ValidSpec ss) :
    parseSalt (formatToken ss dig) = some ss := by
  obtain ⟨v, c, chars⟩ := ss
  have hm : v = 97 ∨ v = 98 := hv.1
  have hc4 : 4 ≤ c := hv.2.1
  have hc31 : c ≤ 31 := hv.2.2.1
  have hlen : chars.length = 22 := hv.2.2.2.1
  have hmem : ∀ b ∈ chars, isB64 b := hv.2.2.2.2
  have htake : (chars ++ dig).take 22 = chars := List.take_left' hlen
  show parseSalt (36 :: 50 :: v :: 36 :: (48 + c / 10) :: (48 + c % 10)
      :: 36 :: (chars ++ dig)) = some ⟨v, c, chars⟩
  simp only [parseSalt, htake, costOf_digits]
  rw [if_pos]
  exact ⟨by tauto, by omega, by omega, by omega, by omega, hc4, hc31, hlen, hmem⟩

theorem validSpec_of_validSalt {rc : Bytes} (h : ValidSalt rc) :
    ValidSpec ⟨98, 12, rc⟩ :=
  ⟨Or.inr rfl, by norm_num, by norm_num, h.1, h.2⟩

theorem not_isB64_zero : ¬ isB64 0 := by decide

theorem zero_notin_of_validSalt {rc : Bytes} (h : ValidSalt rc) : 0 ∉ rc :=
  fun h0 => not_isB64_zero (h.2 0 h0)

theorem zero_notin_gensalt {rc : Bytes} (h : ValidSalt rc) : 0 ∉ gensalt rc := by
  intro hmem
  simp only [gensalt, List.mem_cons] at hmem
  rcases hmem with h' | h' | h' | h' | h' | h' | h' | h' <;>
    first
      | omega
      | exact zero_notin_of_validSalt h h'

theorem zero_notin_formatToken {ss : SaltSpec} {dig : Bytes} (hv : ValidSpec ss)
    (hd : 0 ∉ dig) : 0 ∉ formatToken ss dig := by
  intro hmem
  simp only [formatToken, List.mem_cons, List.mem_append] at hmem
  rcases hmem with h' | h' | h' | h' | h' | h' | h' | h' | h'
  · omega
  · omega
  · rcases hv.1 with hm | hm <;> omega
  · omega
  · omega
  · omega
  · omega
  · exact not_isB64_zero (hv.2.2.2.2 0 h')
  · exact hd h'

theorem parseSalt_gensalt {rc : Bytes} (h : ValidSalt rc) :
    parseSalt (gensalt rc) = some ⟨98, 12, rc⟩ := by
  have hform : gensalt rc = formatToken ⟨98, 12, rc⟩ [] := by
    simp [gensalt, formatToken]
  rw [hform, parseSalt_formatToken [] (validSpec_of_validSalt h)]

/-- Running `hash_password` on a NUL-free secret with a well-formed fresh salt
returns the bcrypt token for that salt and the digest of the truncated
encoded secret. -/
theorem hash_password_ok (digest : Bytes → SaltSpec → Bytes) {rc : Bytes}
    (s : String) (hs0 : 0 ∉ utf8Encode s) (hrc : ValidSalt rc) :
    hash_password digest rc s =
      Except.ok (formatToken ⟨98, 12, rc⟩
        (digest ((utf8Encode s).take 72) ⟨98, 12, rc⟩)) := by
  unfold hash_password hashpw
  rw [if_neg (by
    rintro (h | h)
    · exact hs0 h
    · exact zero_notin_gensalt hrc h)]
  rw [parseSalt_gensalt hrc]

/-- Core round-trip lemma: hashing a NUL-free secret with a well-formed
fresh salt and verifying the same secret against the produced token
succeeds, for every digest function whose output on this input is NUL-free
(as bcrypt's radix-64 digests always are). -/
theorem roundTrip_ok (digest : Bytes → SaltSpec → Bytes) {rc : Bytes}
    (s : String) (hs0 : 0 ∉ utf8Encode s) (hrc : ValidSalt rc)
    (hd : 0 ∉ digest ((utf8Encode s).take 72) ⟨98, 12, rc⟩) :
    roundTrip digest rc s = Except.ok true := by
  have hspec := validSpec_of_validSalt hrc
  have htok : 0 ∉ formatToken ⟨98, 12, rc⟩
      (digest ((utf8Encode s).take 72) ⟨98, 12, rc⟩) :=
    zero_notin_formatToken hspec hd
  unfold roundTrip
  rw [hash_password_ok digest s hs0 hrc]
  show is_valid digest _ s = Except.ok true
  unfold is_valid checkpw
  rw [if_neg (by rintro (h | h) <;> [exact hs0 h; exact htok h])]
  unfold hashpw
  rw [if_neg (by rintro (h | h) <;> [exact hs0 h; exact htok h])]
  rw [parseSalt_formatToken _ hspec]
  simp

/-! ## Lemmas about the substitution model -/

theorem length_dropWhile_le {α : Type} (p : α → Bool) (l : List α) :
    (l.dropWhile p).length ≤ l.length := by
  induction l with
  | nil => simp
  | cons a l ih =>
    rw [List.dropWhile_cons]
    split <;> simp <;> omega

theorem matchRest_length {f sep t rest : List Char}
    (h : matchRest f sep t = some rest) : rest.length < t.length := by
  unfold matchRest at h
  split at h
  · rename_i hc
    obtain ⟨-, hne⟩ := hc
    have hdrop : (t.drop (f.length + 1)) ≠ [] := by
      intro h0
      rw [h0] at hne
      exact hne rfl
    have hx : (t.drop (f.length + 1)).dropWhile (nonsep sep) = rest := by
      simp only [Option.some.injEq] at h
      exact h
    have h1 : rest.length ≤ (t.drop (f.length + 1)).length := by
      rw [← hx]
      exact length_dropWhile_le _ _
    have h2 : (t.drop (f.length + 1)).length = t.length - (f.length + 1) :=
      List.length_drop _ _
    have h3 : 0 < (t.drop (f.length + 1)).length := List.length_pos.mpr hdrop
    omega
  · exact absurd h (by simp)

theorem subFAux_fuel (f sep r : List Char) :
    ∀ (fuel1 fuel2 : Nat) (s : List Char), s.length ≤ fuel1 →
      s.length ≤ fuel2 → subFAux f sep r fuel1 s = subFAux f sep r fuel2 s := by
  intro fuel1
  induction fuel1 with
  | zero =>
    intro fuel2 s hs1 _
    have : s = [] := List.eq_nil_of_length_eq_zero (by omega)
    subst this
    cases fuel2 <;> rfl
  | succ n ih =>
    intro fuel2 s hs1 hs2
    match s with
    | [] => cases fuel2 <;> rfl
    | c :: s' =>
      match fuel2, hs2 with
      | m + 1, hs2 =>
        show (match matchRest f sep (c :: s') with
            | some rest => f ++ '=' :: (r ++ subFAux f sep r n rest)
            | none => c :: subFAux f sep r n s') =
          (match matchRest f sep (c :: s') with
            | some rest => f ++ '=' :: (r ++ subFAux f sep r m rest)
            | none => c :: subFAux f sep r m s')
        cases hm : matchRest f sep (c :: s') with
        | some rest =>
          have hlt := matchRest_length hm
          simp only [List.length_cons] at hlt hs1 hs2
          show f ++ '=' :: (r ++ subFAux f sep r n rest) =
            f ++ '=' :: (r ++ subFAux f sep r m rest)
          rw [ih m rest (by omega) (by omega)]
        | none =>
          simp only [List.length_cons] at hs1 hs2
          show c :: subFAux f sep r n s' = c :: subFAux f sep r m s'
          rw [ih m s' (by omega) (by omega)]

/-- Unfolding equation for `subF` on a nonempty input. -/
theorem subF_cons (f sep r : List Char) (c : Char) (s : List Char) :
    subF f sep r (c :: s) =
      match matchRest f sep (c :: s) with
      | some rest => f ++ '=' :: (r ++ subF f sep r rest)
      | none => c :: subF f sep r s := by
  show (match matchRest f sep (c :: s) with
      | some rest => f ++ '=' :: (r ++ subFAux f sep r s.length rest)
      | none => c :: subFAux f sep r s.length s) = _
  cases hm : matchRest f sep (c :: s) with
  | some rest =>
    have hlt := matchRest_length hm
    simp only [List.length_cons] at hlt
    show f ++ '=' :: (r ++ subFAux f sep r s.length rest) =
      f ++ '=' :: (r ++ subF f sep r rest)
    rw [subFAux_fuel f sep r s.length rest.length rest (by omega) (by omega)]
    rfl
  | none => rfl

theorem subF_nil (f sep r : List Char) : subF f sep r [] = [] := rfl

theorem nonsep_true_iff {sep : List Char} {c : Char} :
    nonsep sep c = true ↔ c ∉ sep := by
  simp [nonsep, List.elem_iff]

theorem nonsep_false_iff {sep : List Char} {c : Char} :
    nonsep sep c = false ↔ c ∈ sep := by
  simp [nonsep, List.elem_iff]

theorem takeWhile_append_stop {p : Char → Bool} {d : Char} {ys : List Char}
    (hd : p d = false) :
    ∀ u : List Char, (u ++ d :: ys).takeWhile p = u.takeWhile p := by
  intro u
  induction u with
  | nil => simp [List.takeWhile_cons, hd]
  | cons a u ih =>
    by_cases ha : p a = true
    · simp [List.takeWhile_cons, ha, ih]
    · simp only [Bool.not_eq_true] at ha
      simp [List.takeWhile_cons, ha]

theorem dropWhile_append_stop {p : Char → Bool} {d : Char} {ys : List Char}
    (hd : p d = false) :
    ∀ u : List Char, (u ++ d :: ys).dropWhile p = u.dropWhile p ++ d :: ys := by
  intro u
  induction u with
  | nil => simp [List.dropWhile_cons, hd]
  | cons a u ih =>
    by_cases ha : p a = true
    · simp [List.dropWhile_cons, ha, ih]
    · simp only [Bool.not_eq_true] at ha
      simp [List.dropWhile_cons, ha]

theorem matchRest_nil {f sep : List Char} : matchRest f sep [] = none := by
  unfold matchRest
  rw [if_neg]
  rintro ⟨h, -⟩
  have := List.prefix_nil.mp ( List.isPrefixOf_iff_prefix.mp h)
  simp at this

/-- A match of the pattern inside `xs ++ d :: ys` with `d` a separator
character cannot reach `d`: the literal part `f ++ "="` is separator-free,
so it lies entirely inside `xs`. -/
theorem pattern_confined {f sep xs ys : List Char} {d : Char}
    (hfs : ∀ c ∈ f, c ∉ sep) (hne : ('=' : Char) ∉ sep) (hd : d ∈ sep)
    (h : (f ++ ['=']).isPrefixOf (xs ++ d :: ys) = true) :
    f.length + 1 ≤ xs.length ∧ (f ++ ['=']).isPrefixOf xs = true := by
  rw [ List.isPrefixOf_iff_prefix] at h
  by_cases hlen : f.length + 1 ≤ xs.length
  · refine ⟨hlen, ?_⟩
    rw [ List.isPrefixOf_iff_prefix]
    have h1 : (xs ++ d :: ys).take (f.length + 1) = f ++ ['='] := by
      have h2 := List.prefix_iff_eq_take.mp h
      simpa [List.length_append] using h2.symm
    rw [List.take_append_of_le_length hlen] at h1
    rw [← h1]
    exact List.take_prefix _ _
  · exfalso
    push_neg at hlen
    obtain ⟨u, hu⟩ := h
    have hget : ((f ++ ['=']) ++ u).get? xs.length = some d := by
      rw [hu, List.get?_append_right (le_refl xs.length)]
      simp
    have hlt : xs.length < (f ++ ['=']).length := by
      simp only [List.length_append, List.length_cons, List.length_nil]
      omega
    have hin : (f ++ ['=']).get? xs.length = some d := by
      rw [List.get?_append hlt] at hget
      exact hget
    have hdmem : d ∈ f ++ ['='] := List.get?_mem hin
    rw [List.mem_append] at hdmem
    rcases hdmem with hm | hm
    · exact (hfs d hm) hd
    · simp only [List.mem_singleton] at hm
      subst hm
      exact hne hd

/-- Matching at the head of `xs ++ d :: ys` (with `d` a separator) is
matching at the head of `xs`, with the tail carried along unchanged. -/
theorem matchRest_append_sep {f sep : List Char} {d : Char}
    (hfs : ∀ c ∈ f, c ∉ sep) (hne : ('=' : Char) ∉ sep) (hd : d ∈ sep)
    (xs ys : List Char) :
    matchRest f sep (xs ++ d :: ys) =
      (matchRest f sep xs).map (· ++ d :: ys) := by
  have hpd : nonsep sep d = false := nonsep_false_iff.mpr hd
  unfold matchRest
  by_cases hpre : (f ++ ['=']).isPrefixOf xs = true
  · have hlen : f.length + 1 ≤ xs.length := by
      have h1 := ( List.isPrefixOf_iff_prefix.mp hpre).length_le
      simp only [List.length_append, List.length_cons, List.length_nil] at h1
      omega
    have hpre' : (f ++ ['=']).isPrefixOf (xs ++ d :: ys) = true := by
      rw [ List.isPrefixOf_iff_prefix] at hpre ⊢
      exact hpre.trans ( List.prefix_append xs (d :: ys))
    have hdropfull : (xs ++ d :: ys).drop (f.length + 1) =
        xs.drop (f.length + 1) ++ d :: ys := by
      rw [List.drop_append_eq_append_drop]
      have h0 : f.length + 1 - xs.length = 0 := by omega
      rw [h0]
      rfl
    have htw : ((xs ++ d :: ys).drop (f.length + 1)).takeWhile (nonsep sep) =
        (xs.drop (f.length + 1)).takeWhile (nonsep sep) := by
      rw [hdropfull, takeWhile_append_stop hpd]
    have hdw : ((xs ++ d :: ys).drop (f.length + 1)).dropWhile (nonsep sep) =
        (xs.drop (f.length + 1)).dropWhile (nonsep sep) ++ d :: ys := by
      rw [hdropfull, dropWhile_append_stop hpd]
    by_cases hrun : (xs.drop (f.length + 1)).takeWhile (nonsep sep) ≠ []
    · rw [if_pos ⟨hpre', by rw [htw]; exact hrun⟩, if_pos ⟨hpre, hrun⟩]
      simp [hdw]
    · push_neg at hrun
      rw [if_neg (by rintro ⟨-, hcon⟩; rw [htw] at hcon; exact hcon hrun),
          if_neg (by rintro ⟨-, hcon⟩; exact hcon hrun)]
      rfl
  · rw [if_neg (by
        rintro ⟨hcon, -⟩
        exact hpre (pattern_confined hfs hne hd hcon).2),
      if_neg (by rintro ⟨hcon, -⟩; exact hpre hcon)]
    rfl

/-- Scanning starts afresh right after a separator character. -/
theorem subF_sep_head {f sep r : List Char} {d : Char}
    (hfs : ∀ c ∈ f, c ∉ sep) (hne : ('=' : Char) ∉ sep) (hd : d ∈ sep)
    (ys : List Char) :
    subF f sep r (d :: ys) = d :: subF f sep r ys := by
  rw [subF_cons]
  have h0 : matchRest f sep (d :: ys) = none := by
    have h1 := matchRest_append_sep hfs hne hd [] ys
    simp only [List.nil_append] at h1
    rw [h1, matchRest_nil]
    rfl
  rw [h0]

/-- The substitution distributes over a separator character: matches never
cross it. -/
theorem subF_append_sep {f sep r : List Char} {d : Char}
    (hfs : ∀ c ∈ f, c ∉ sep) (hne : ('=' : Char) ∉ sep) (hd : d ∈ sep) :
    ∀ xs ys : List Char,
      subF f sep r (xs ++ d :: ys) = subF f sep r xs ++ d :: subF f sep r ys := by
  suffices H : ∀ (n : Nat) (xs ys : List Char), xs.length ≤ n →
      subF f sep r (xs ++ d :: ys) = subF f sep r xs ++ d :: subF f sep r ys by
    intro xs ys
    exact H xs.length xs ys le_rfl
  intro n
  induction n with
  | zero =>
    intro xs ys hlen
    have hxs : xs = [] := List.eq_nil_of_length_eq_zero (by omega)
    subst hxs
    simp only [List.nil_append, subF_nil]
    exact subF_sep_head hfs hne hd ys
  | succ n ih =>
    intro xs ys hlen
    match xs with
    | [] =>
      simp only [List.nil_append, subF_nil]
      exact subF_sep_head hfs hne hd ys
    | c :: xs' =>
      have hfull : matchRest f sep (c :: (xs' ++ d :: ys)) =
          (matchRest f sep (c :: xs')).map (· ++ d :: ys) := by
        have h1 := matchRest_append_sep hfs hne hd (c :: xs') ys
        simpa using h1
      show subF f sep r (c :: (xs' ++ d :: ys)) = _
      rw [subF_cons, hfull]
      simp only [List.length_cons] at hlen
      cases hm : matchRest f sep (c :: xs') with
      | some rest =>
        have hlt := matchRest_length hm
        simp only [List.length_cons] at hlt
        have hR : subF f sep r (c :: xs') = f ++ '=' :: (r ++ subF f sep r rest) := by
          rw [subF_cons, hm]
        rw [hR]
        simp only [Option.map_some']
        show f ++ '=' :: (r ++ subF f sep r (rest ++ d :: ys)) = _
        rw [ih rest ys (by omega)]
        simp [List.append_assoc, List.cons_append]
      | none =>
        have hR : subF f sep r (c :: xs') = c :: subF f sep r xs' := by
          rw [subF_cons, hm]
        rw [hR]
        simp only [Option.map_none']
        show c :: subF f sep r (xs' ++ d :: ys) = _
        rw [ih xs' ys (by omega)]
        simp [List.cons_append]

/-- `filter_datum` distributes over a separator character when every field
is plain. -/
theorem filter_datum_append_sep {sep r : List Char} {d : Char}
    (hne : ('=' : Char) ∉ sep) (hd : d ∈ sep) :
    ∀ (fields : List (List Char)), (∀ f ∈ fields, PlainField sep f) →
      ∀ xs ys : List Char,
        filter_datum fields r (xs ++ d :: ys) sep =
          filter_datum fields r xs sep ++ d :: filter_datum fields r ys sep := by
  intro fields
  induction fields with
  | nil =>
    intro _ xs ys
    rfl
  | cons f fs ih =>
    intro hall xs ys
    have hf := hall f (List.mem_cons_self f fs)
    have hfs : ∀ c ∈ f, c ∉ sep := fun c hc => (hf.2 c hc).1
    show filter_datum fs r (subF f sep r (xs ++ d :: ys)) sep = _
    rw [subF_append_sep hfs hne hd xs ys]
    exact ih (fun g hg => hall g (List.mem_cons_of_mem f hg)) _ _

/-- On a separator-free block, the substitution replaces everything from
the first qualifying occurrence of `f ++ "="` to the end of the block by
`f ++ "=" ++ r` (the greedy nonempty run reaches the end of the block),
and leaves the block unchanged if there is no such occurrence. -/
theorem subF_block {f sep r : List Char} :
    ∀ B : List Char, (∀ c ∈ B, c ∉ sep) →
      subF f sep r B = (match blockPos f B with
        | some q => B.take (q + f.length + 1) ++ r
        | none => B) := by
  suffices H : ∀ (n : Nat) (B : List Char), B.length ≤ n → (∀ c ∈ B, c ∉ sep) →
      subF f sep r B = (match blockPos f B with
        | some q => B.take (q + f.length + 1) ++ r
        | none => B) by
    intro B hall
    exact H B.length B le_rfl hall
  intro n
  induction n with
  | zero =>
    intro B hlen _
    have hB : B = [] := List.eq_nil_of_length_eq_zero (by omega)
    subst hB
    rfl
  | succ n ih =>
    intro B hlen hall
    match B with
    | [] => rfl
    | c :: s' =>
      have hall' : ∀ x ∈ s', x ∉ sep := fun x hx =>
        hall x (List.mem_cons_of_mem c hx)
      have halldrop : ∀ x ∈ (c :: s').drop (f.length + 1), nonsep sep x = true :=
        fun x hx => nonsep_true_iff.mpr (hall x (List.mem_of_mem_drop hx))
      have htw : ((c :: s').drop (f.length + 1)).takeWhile (nonsep sep) =
          (c :: s').drop (f.length + 1) := List.takeWhile_eq_self_iff.mpr halldrop
      have hdw : ((c :: s').drop (f.length + 1)).dropWhile (nonsep sep) = [] :=
        List.dropWhile_eq_nil_iff.mpr halldrop
      by_cases hc : (f ++ ['=']).isPrefixOf (c :: s') = true ∧
          f.length + 1 < (c :: s').length
      · have hbp : blockPos f (c :: s') = some 0 := by
          unfold blockPos
          rw [if_pos hc]
        have hmr : matchRest f sep (c :: s') = some [] := by
          unfold matchRest
          rw [if_pos ⟨hc.1, by
            rw [htw, Ne, List.drop_eq_nil_iff]
            omega⟩]
          rw [hdw]
        rw [subF_cons, hmr, hbp]
        show f ++ '=' :: (r ++ subF f sep r []) = (c :: s').take (0 + f.length + 1) ++ r
        have htake : (c :: s').take (f.length + 1) = f ++ ['='] := by
          have h2 := List.prefix_iff_eq_take.mp ( List.isPrefixOf_iff_prefix.mp hc.1)
          simpa [List.length_append] using h2.symm
        rw [subF_nil, List.append_nil, Nat.zero_add, htake]
        simp
      · have hbp : blockPos f (c :: s') = (blockPos f s').map (· + 1) := by
          rw [blockPos, if_neg hc]
        have hmr : matchRest f sep (c :: s') = none := by
          unfold matchRest
          rw [if_neg]
          rintro ⟨hpre, hrun⟩
          rw [htw, Ne, List.drop_eq_nil_iff] at hrun
          exact hc ⟨hpre, by omega⟩
        rw [subF_cons, hmr, hbp]
        show c :: subF f sep r s' = _
        simp only [List.length_cons] at hlen
        rw [ih s' (by omega) hall']
        cases hq : blockPos f s' with
        | some q =>
          simp only [Option.map_some']
          show c :: (s'.take (q + f.length + 1) ++ r) =
            (c :: s').take (q + 1 + f.length + 1) ++ r
          have : q + 1 + f.length + 1 = (q + f.length + 1) + 1 := by omega
          rw [this, List.take_succ_cons]
          rfl
        | none => rfl

theorem blockPos_none {f : List Char} :
    ∀ {s : List Char}, blockPos f s = none →
      ∀ p, ¬(occAt f s p ∧ p + f.length + 1 < s.length) := by
  intro s
  induction s with
  | nil =>
    rintro - p ⟨-, hval⟩
    simp only [List.length_nil] at hval
    omega
  | cons c s' ih =>
    intro h p
    rw [blockPos] at h
    by_cases hc : (f ++ ['=']).isPrefixOf (c :: s') = true ∧
        f.length + 1 < (c :: s').length
    · rw [if_pos hc] at h
      exact absurd h (by simp)
    · rw [if_neg hc] at h
      have h' : blockPos f s' = none := by
        cases hb : blockPos f s' with
        | none => rfl
        | some q => rw [hb] at h; exact absurd h (by simp)
      match p with
      | 0 =>
        rintro ⟨hocc, hval⟩
        simp only [List.length_cons] at hval
        exact hc ⟨by simpa [occAt] using hocc, by simp only [List.length_cons]; omega⟩
      | p + 1 =>
        rintro ⟨hocc, hval⟩
        have hocc' : occAt f s' p := hocc
        have hval' : p + f.length + 1 < s'.length := by
          simp only [List.length_cons] at hval
          omega
        exact ih h' p ⟨hocc', hval'⟩

theorem blockPos_some {f : List Char} :
    ∀ {s : List Char} {q : Nat}, blockPos f s = some q →
      occAt f s q ∧ q + f.length + 1 < s.length ∧
        ∀ p < q, ¬(occAt f s p ∧ p + f.length + 1 < s.length) := by
  intro s
  induction s with
  | nil => intro q h; exact absurd h (by simp [blockPos])
  | cons c s' ih =>
    intro q h
    rw [blockPos] at h
    by_cases hc : (f ++ ['=']).isPrefixOf (c :: s') = true ∧
        f.length + 1 < (c :: s').length
    · rw [if_pos hc] at h
      have hq : q = 0 := by
        have := Option.some.inj h
        omega
      subst hq
      refine ⟨by simpa [occAt] using hc.1, by simpa using hc.2, ?_⟩
      intro p hp
      omega
    · rw [if_neg hc] at h
      rw [Option.map_eq_some'] at h
      obtain ⟨q', hq', rfl⟩ := h
      obtain ⟨hocc, hval, hmin⟩ := ih hq'
      refine ⟨hocc, by simp only [List.length_cons]; omega, ?_⟩
      intro p hp
      match p with
      | 0 =>
        rintro ⟨hocc0, hval0⟩
        simp only [List.length_cons] at hval0
        exact hc ⟨by simpa [occAt] using hocc0, by simp only [List.length_cons]; omega⟩
      | p + 1 =>
        rintro ⟨hoccp, hvalp⟩
        have hvalp' : p + f.length + 1 < s'.length := by
          simp only [List.length_cons] at hvalp
          omega
        exact hmin p (by omega) ⟨hoccp, hvalp'⟩

/-- An occurrence fully inside the kept prefix survives appending a tail. -/
theorem occAt_concat_up {f B t : List Char} {m q : Nat} (hm : m ≤ B.length)
    (h : occAt f B q) (hlt : q + f.length < m) :
    occAt f (B.take m ++ t) q := by
  unfold occAt at h ⊢
  rw [ List.isPrefixOf_iff_prefix] at h ⊢
  have hdrop : (B.take m ++ t).drop q = (B.drop q).take (m - q) ++ t := by
    rw [List.drop_append_eq_append_drop]
    have h1 : q - (B.take m).length = 0 := by
      rw [List.length_take_of_le hm]
      omega
    rw [h1, List.drop_take]
    rfl
  rw [hdrop]
  have hlen : (f ++ ['=']).length ≤ m - q := by
    simp only [List.length_append, List.length_cons, List.length_nil]
    omega
  have hpre : f ++ ['='] <+: (B.drop q).take (m - q) := by
    rw [ List.prefix_iff_eq_take] at h ⊢
    rw [List.take_take]
    rw [min_eq_left hlen]
    exact h
  exact hpre.trans ( List.prefix_append _ _)

/-- An occurrence in `B.take m ++ t` whose pattern cannot contain `'='`
beyond the prefix lies fully inside the kept prefix and is an occurrence
in `B`. -/
theorem occAt_concat_down {f B t : List Char} {m q : Nat} (hm : m ≤ B.length)
    (ht : ('=' : Char) ∉ t) (hfe : ('=' : Char) ∉ f)
    (h : occAt f (B.take m ++ t) q) :
    occAt f B q ∧ q + f.length < m := by
  unfold occAt at h
  rw [ List.isPrefixOf_iff_prefix] at h
  obtain ⟨u, hu⟩ := h
  have hgetT : (B.take m ++ t).get? (q + f.length) = some '=' := by
    have h1 : ((f ++ ['=']) ++ u).get? f.length = some '=' := by
      have h2 : (f ++ ['=']).get? f.length = some '=' := by
        rw [List.get?_append_right (le_refl f.length)]
        simp
      rw [List.get?_append (by simp only [List.length_append,
        List.length_cons, List.length_nil]; omega)]
      exact h2
    rw [hu] at h1
    rw [← List.get?_drop]
    exact h1
  have hqm : q + f.length < m := by
    by_contra hcon
    push_neg at hcon
    rw [List.get?_append_right (by rw [List.length_take_of_le hm]; omega)] at hgetT
    have : ('=' : Char) ∈ t := List.get?_mem hgetT
    exact ht this
  refine ⟨?_, hqm⟩
  unfold occAt
  rw [ List.isPrefixOf_iff_prefix]
  have hdrop : (B.take m ++ t).drop q = (B.drop q).take (m - q) ++ t := by
    rw [List.drop_append_eq_append_drop]
    have h1 : q - (B.take m).length = 0 := by
      rw [List.length_take_of_le hm]
      omega
    rw [h1, List.drop_take]
    rfl
  have hpre : f ++ ['='] <+: (B.drop q).take (m - q) ++ t := by
    rw [← hdrop]
    exact ⟨u, hu⟩
  have hlenA : (f ++ ['=']).length ≤ ((B.drop q).take (m - q)).length := by
    rw [List.length_take_of_le (by rw [List.length_drop]; omega)]
    simp only [List.length_append, List.length_cons, List.length_nil]
    omega
  have hpreA : f ++ ['='] <+: (B.drop q).take (m - q) := by
    rw [ List.prefix_iff_eq_take] at hpre ⊢
    have heq : ((B.drop q).take (m - q) ++ t).take (f ++ ['=']).length =
        ((B.drop q).take (m - q)).take (f ++ ['=']).length :=
      List.take_append_of_le_length hlenA
    rw [← heq]
    exact hpre
  exact hpreA.trans ( List.take_prefix _ _)

theorem stInv_step {sep r B : List Char} {pre : List (List Char)} {s f : List Char}
    (hB : ∀ c ∈ B, c ∉ sep) (hr : PlainRedaction sep r) (hf : PlainField sep f)
    (hinv : StInv sep r B pre s) :
    StInv sep r B (pre ++ [f]) (subF f sep r s) := by
  obtain ⟨m, t, hm, rfl, htd, hpre⟩ := hinv
  have hts : ∀ c ∈ t, c ∉ sep := by
    rcases htd with ⟨rfl, -⟩ | rfl
    · simp
    · exact fun c hc => (hr c hc).1
  have hte : ('=' : Char) ∉ t := by
    rcases htd with ⟨rfl, -⟩ | rfl
    · simp
    · intro hc
      exact ((hr '=' hc).2.1) rfl
  have hse : ∀ c ∈ B.take m ++ t, c ∉ sep := by
    intro c hc
    rcases List.mem_append.mp hc with h | h
    · exact hB c (List.mem_of_mem_take h)
    · exact hts c h
  have hslen : (B.take m ++ t).length = m + t.length := by
    rw [List.length_append, List.length_take_of_le hm]
  rw [subF_block _ hse]
  cases hq : blockPos f (B.take m ++ t) with
  | none =>
    refine ⟨m, t, hm, rfl, htd, ?_⟩
    intro g hg q hocc hval
    rcases List.mem_append.mp hg with hgpre | hgf
    · exact hpre g hgpre q hocc hval
    · simp only [List.mem_singleton] at hgf
      subst hgf
      have hoccs : occAt g (B.take m ++ t) q := occAt_concat_up hm hocc (by omega)
      exact blockPos_none hq q ⟨hoccs, by rw [hslen]; omega⟩
  | some q =>
    obtain ⟨hoccs, hvals, hmin⟩ := blockPos_some hq
    have hfe : ('=' : Char) ∉ f := fun hc => ((hf.2 '=' hc).2.1) rfl
    obtain ⟨hoccB, hqm⟩ := occAt_concat_down hm hte hfe hoccs
    refine ⟨q + f.length + 1, r, by omega, ?_, Or.inr rfl, ?_⟩
    · have h1 : (B.take m ++ t).take (q + f.length + 1) =
          B.take (q + f.length + 1) := by
        rw [List.take_append_of_le_length (by rw [List.length_take_of_le hm]; omega)]
        rw [List.take_take, min_eq_left (by omega)]
      show (B.take m ++ t).take (q + f.length + 1) ++ r =
        B.take (q + f.length + 1) ++ r
      rw [h1]
    · intro g hg q' hocc' hval'
      rcases List.mem_append.mp hg with hgpre | hgf
      · exact hpre g hgpre q' hocc' (by omega)
      · simp only [List.mem_singleton] at hgf
        subst hgf
        have hoccs' : occAt g (B.take m ++ t) q' :=
          occAt_concat_up hm hocc' (by omega)
        exact hmin q' (by omega) ⟨hoccs', by rw [hslen]; omega⟩

theorem stInv_fold {sep r B : List Char} (hB : ∀ c ∈ B, c ∉ sep)
    (hr : PlainRedaction sep r) :
    ∀ (fields pre : List (List Char)) (s : List Char),
      (∀ f ∈ fields, PlainField sep f) → StInv sep r B pre s →
      StInv sep r B (pre ++ fields)
        (fields.foldl (fun msg g => subF g sep r msg) s) := by
  intro fields
  induction fields with
  | nil =>
    intro pre s _ hinv
    simpa using hinv
  | cons f fs ih =>
    intro pre s hall hinv
    have h1 := stInv_step hB hr (hall f (List.mem_cons_self f fs)) hinv
    have h2 := ih (pre ++ [f]) (subF f sep r s)
      (fun g hg => hall g (List.mem_cons_of_mem f hg)) h1
    simpa [List.append_assoc] using h2

theorem stInv_filter {sep r B : List Char} {fields : List (List Char)}
    (hB : ∀ c ∈ B, c ∉ sep) (hr : PlainRedaction sep r)
    (hfields : ∀ f ∈ fields, PlainField sep f) :
    StInv sep r B fields (filter_datum fields r B sep) := by
  have h0 : StInv sep r B [] B :=
    ⟨B.length, [], le_rfl, by simp, Or.inl ⟨rfl, rfl⟩, by simp⟩
  have h1 := stInv_fold hB hr fields [] B hfields h0
  simpa [filter_datum] using h1

/-- After a full pass over a separator-free block, every plain field of the
pass leaves the result unchanged. -/
theorem subF_fixed {sep r B T f : List Char} {fields : List (List Char)}
    (hB : ∀ c ∈ B, c ∉ sep) (hr : PlainRedaction sep r) (hf : PlainField sep f)
    (hfmem : f ∈ fields) (hinv : StInv sep r B fields T) :
    subF f sep r T = T := by
  obtain ⟨m, t, hm, rfl, htd, hpre⟩ := hinv
  have hts : ∀ c ∈ t, c ∉ sep := by
    rcases htd with ⟨rfl, -⟩ | rfl
    · simp
    · exact fun c hc => (hr c hc).1
  have hte : ('=' : Char) ∉ t := by
    rcases htd with ⟨rfl, -⟩ | rfl
    · simp
    · intro hc
      exact ((hr '=' hc).2.1) rfl
  have hse : ∀ c ∈ B.take m ++ t, c ∉ sep := by
    intro c hc
    rcases List.mem_append.mp hc with h | h
    · exact hB c (List.mem_of_mem_take h)
    · exact hts c h
  have hslen : (B.take m ++ t).length = m + t.length := by
    rw [List.length_append, List.length_take_of_le hm]
  rw [subF_block _ hse]
  cases hq : blockPos f (B.take m ++ t) with
  | none => rfl
  | some q =>
    obtain ⟨hoccs, hvals, hmin⟩ := blockPos_some hq
    have hfe : ('=' : Char) ∉ f := fun hc => ((hf.2 '=' hc).2.1) rfl
    obtain ⟨hoccB, hqm⟩ := occAt_concat_down hm hte hfe hoccs
    have hnlt : ¬(q + f.length + 1 < m) := hpre f hfmem q hoccB
    have hqm1 : q + f.length + 1 = m := by omega
    have htr : t = r := by
      rcases htd with ⟨rfl, hmB⟩ | h
      · rw [hslen] at hvals
        simp only [List.length_nil] at hvals
        omega
      · exact h
    have h1 : (B.take m ++ t).take (q + f.length + 1) = B.take m := by
      rw [hqm1]
      rw [List.take_append_of_le_length (le_of_eq (List.length_take_of_le hm).symm)]
      rw [List.take_take, min_self]
    show (B.take m ++ t).take (q + f.length + 1) ++ r = B.take m ++ t
    rw [h1, htr]

theorem filter_datum_fixed {sep r T : List Char} :
    ∀ fields : List (List Char), (∀ f ∈ fields, subF f sep r T = T) →
      filter_datum fields r T sep = T := by
  intro fields
  induction fields with
  | nil => intro _; rfl
  | cons f fs ih =>
    intro hfix
    show filter_datum fs r (subF f sep r T) sep = T
    rw [hfix f (List.mem_cons_self f fs)]
    exact ih (fun g hg => hfix g (List.mem_cons_of_mem f hg))

theorem filter_datum_idem_block {sep r B : List Char} {fields : List (List Char)}
    (hB : ∀ c ∈ B, c ∉ sep) (hr : PlainRedaction sep r)
    (hfields : ∀ f ∈ fields, PlainField sep f) :
    filter_datum fields r (filter_datum fields r B sep) sep =
      filter_datum fields r B sep := by
  have hinv := stInv_filter hB hr hfields
  exact filter_datum_fixed fields
    (fun f hf => subF_fixed hB hr (hfields f hf) hf hinv)

/-- Idempotence of `filter_datum` on every message, for plain fields and a
plain redaction. -/
theorem filter_datum_idem {sep r : List Char} {fields : List (List Char)}
    (hne : ('=' : Char) ∉ sep) (hr : PlainRedaction sep r)
    (hfields : ∀ f ∈ fields, PlainField sep f) :
    ∀ msg : List Char,
      filter_datum fields r (filter_datum fields r msg sep) sep =
        filter_datum fields r msg sep := by
  suffices H : ∀ (n : Nat) (msg : List Char), msg.length ≤ n →
      filter_datum fields r (filter_datum fields r msg sep) sep =
        filter_datum fields r msg sep by
    intro msg
    exact H msg.length msg le_rfl
  intro n
  induction n with
  | zero =>
    intro msg hlen
    have hmsg : msg = [] := List.eq_nil_of_length_eq_zero (by omega)
    subst hmsg
    exact filter_datum_idem_block (by simp) hr hfields
  | succ n ih =>
    intro msg hlen
    by_cases hsf : ∀ c ∈ msg, c ∉ sep
    · exact filter_datum_idem_block hsf hr hfields
    · push_neg at hsf
      obtain ⟨d, hdmem, hdsep⟩ := hsf
      obtain ⟨xs, ys, rfl⟩ := List.append_of_mem hdmem
      rw [filter_datum_append_sep hne hdsep fields hfields xs ys]
      rw [filter_datum_append_sep hne hdsep fields hfields
        (filter_datum fields r xs sep) (filter_datum fields r ys sep)]
      have hlx : xs.length ≤ n := by
        simp only [List.length_append, List.length_cons] at hlen
        omega
      have hly : ys.length ≤ n := by
        simp only [List.length_append, List.length_cons] at hlen
        omega
      rw [ih xs hlx, ih ys hly]

/-! ## The claims

Each claim of the specification is settled by one theorem below; a claim
refuted as stated additionally gets a closed counterexample theorem, and a
proved theorem with hypotheses gets a closed witness discharging them at
concrete inputs. -/

/-- C1 fails as stated: the non-empty secret `"\x00"` is rejected by
`hash_password` (bcrypt refuses NUL bytes with a `ValueError`), so
verifying it against its own hash cannot return true. -/
theorem C1_counterexample :
    ("\x00" : String) ≠ "" ∧
      roundTrip sampleDigest sampleSalt "\x00" =
        Except.error
          (PyError.valueError "password and salt may not contain NUL bytes") ∧
      roundTrip sampleDigest sampleSalt "\x00" ≠ Except.ok true := by
  refine ⟨by decide, by decide, by decide⟩

/-- C1 (amended): for every non-empty secret whose UTF-8 encoding contains
no NUL byte, verifying the hash of the secret against the secret itself
succeeds, whatever digest function bcrypt applies, for every well-formed
fresh salt and NUL-free digest output. -/
theorem C1_theorem (digest : Bytes → SaltSpec → Bytes) (rc : Bytes)
    (s : String) (hs : s ≠ "") (hs0 : 0 ∉ utf8Encode s) (hrc : ValidSalt rc)
    (hd : 0 ∉ digest ((utf8Encode s).take 72) ⟨98, 12, rc⟩) :
    roundTrip digest rc s = Except.ok true :=
  roundTrip_ok digest s hs0 hrc hd

/-- Witness for `C1_theorem` at concrete inputs. -/
theorem C1_witness :
    ("secret" : String) ≠ "" ∧ 0 ∉ utf8Encode "secret" ∧ ValidSalt sampleSalt ∧
      0 ∉ sampleDigest ((utf8Encode "secret").take 72) ⟨98, 12, sampleSalt⟩ ∧
      roundTrip sampleDigest sampleSalt "secret" = Except.ok true :=
  ⟨by decide, by decide, by decide, by decide,
    C1_theorem sampleDigest sampleSalt "secret" (by decide) (by decide)
      (by decide) (by decide)⟩

/-- C2 fails as stated: on the malformed stored token `b""`, `is_valid`
neither returns false nor raises an error type of the repository's own
(the repository defines none); it propagates bcrypt's
`ValueError('Invalid salt')` to the caller. -/
theorem C2_counterexample :
    is_valid sampleDigest [] "candidate" =
        Except.error (PyError.valueError "Invalid salt") ∧
      is_valid sampleDigest [] "candidate" ≠ Except.ok false := by
  refine ⟨by decide, by decide⟩

/-- C2 (amended): on every stored token whose salt header does not parse —
where parsing accepts bcrypt's full set of minor versions `2a`/`2b`/`2x`/`2y`,
so well-formed tokens of any accepted minor are not malformed and yield a
boolean instead — `is_valid` raises a `ValueError` coming from the bcrypt
wrapper: a single well-defined exception, never partial or undefined
behaviour, and never a wrong acceptance. -/
theorem C2_theorem (digest : Bytes → SaltSpec → Bytes) (tok : Bytes)
    (pw : String) (h : parseSalt tok = none) :
    ∃ m, is_valid digest tok pw = Except.error (PyError.valueError m) := by
  unfold is_valid checkpw
  by_cases h0 : 0 ∈ utf8Encode pw ∨ 0 ∈ tok
  · rw [if_pos h0]
    exact ⟨_, rfl⟩
  · rw [if_neg h0]
    unfold hashpw
    rw [if_neg h0, h]
    exact ⟨_, rfl⟩

/-- Witness for `C2_theorem` at the empty stored token. -/
theorem C2_witness :
    parseSalt [] = none ∧
      ∃ m, is_valid sampleDigest [] "pw" = Except.error (PyError.valueError m) :=
  ⟨rfl, C2_theorem sampleDigest [] "pw" rfl⟩

/-- C3 fails as stated: constructing a `UserSession` with `user_id` absent,
null, or the empty string succeeds — no `InvalidSessionError` (which the
code nowhere defines) is raised, and the stored `user_id` is simply the
looked-up value. -/
theorem C3_counterexample :
    UserSession.init [] = Except.ok ⟨Option.none, Option.none⟩ ∧
      UserSession.init [("user_id", Option.none)] =
        Except.ok ⟨Option.none, Option.none⟩ ∧
      UserSession.init [("user_id", Option.some "")] =
        Except.ok ⟨Option.some "", Option.none⟩ := by
  refine ⟨by decide, by decide, by decide⟩

/-- C3 (amended): `UserSession.__init__` performs no validation at all:
construction always succeeds — also with `user_id` absent, null, or empty —
and stores exactly `kwargs.get('user_id')` and `kwargs.get('session_id')`. -/
theorem C3_theorem (kwargs : List (String × Option String)) :
    ∃ u, UserSession.init kwargs = Except.ok u ∧
      u.user_id = kwargsGet kwargs "user_id" ∧
      u.session_id = kwargsGet kwargs "session_id" :=
  ⟨_, rfl, rfl, rfl⟩

/-- C4 fails as stated: for the non-empty secret `"a\x00b"` the two
invocations do not produce two different verifying tokens — both raise the
same `ValueError`, so the tokens are not produced at all. -/
theorem C4_counterexample :
    ("a\x00b" : String) ≠ "" ∧ sampleSalt ≠ sampleSalt2 ∧
      hash_password sampleDigest sampleSalt "a\x00b" =
        hash_password sampleDigest sampleSalt2 "a\x00b" ∧
      roundTrip sampleDigest sampleSalt "a\x00b" ≠ Except.ok true := by
  refine ⟨by decide, by decide, by decide, by decide⟩

/-- C4 (amended): for every non-empty NUL-free secret, two invocations of
`hash_password` drawing distinct fresh salts produce different tokens, and
both tokens verify the secret successfully. -/
theorem C4_theorem (digest : Bytes → SaltSpec → Bytes) (rc1 rc2 : Bytes)
    (s : String) (hs : s ≠ "") (hne : rc1 ≠ rc2)
    (h1 : ValidSalt rc1) (h2 : ValidSalt rc2) (hs0 : 0 ∉ utf8Encode s)
    (hd1 : 0 ∉ digest ((utf8Encode s).take 72) ⟨98, 12, rc1⟩)
    (hd2 : 0 ∉ digest ((utf8Encode s).take 72) ⟨98, 12, rc2⟩) :
    hash_password digest rc1 s ≠ hash_password digest rc2 s ∧
      roundTrip digest rc1 s = Except.ok true ∧
      roundTrip digest rc2 s = Except.ok true := by
  refine ⟨?_, roundTrip_ok digest s hs0 h1 hd1, roundTrip_ok digest s hs0 h2 hd2⟩
  rw [hash_password_ok digest s hs0 h1, hash_password_ok digest s hs0 h2]
  intro h
  injection h with h'
  simp only [formatToken, List.cons.injEq] at h'
  obtain ⟨-, -, -, -, -, -, -, happ⟩ := h'
  have htake := congrArg (List.take 22) happ
  rw [List.take_left' h1.1, List.take_left' h2.1] at htake
  exact hne htake

/-- Witness for `C4_theorem` at concrete inputs. -/
theorem C4_witness :
    hash_password sampleDigest sampleSalt "staple" ≠
        hash_password sampleDigest sampleSalt2 "staple" ∧
      roundTrip sampleDigest sampleSalt "staple" = Except.ok true ∧
      roundTrip sampleDigest sampleSalt2 "staple" = Except.ok true :=
  C4_theorem sampleDigest sampleSalt sampleSalt2 "staple" (by decide) (by decide)
    (by decide) (by decide) (by decide) (by decide) (by decide)

/-- C5 fails as stated: bcrypt truncates secrets to their first 72 bytes,
so the two distinct secrets `longSecret1` and `longSecret2`, which differ
only in the letter case of their 73rd byte, verify against each other's
hash — deterministically, not with small probability. -/
theorem C5_counterexample :
    longSecret1 ≠ longSecret2 ∧
      crossCheck sampleDigest sampleSalt longSecret1 longSecret2 =
        Except.ok true := by
  refine ⟨by decide, by decide⟩

/-- C5 (amended): verification of a wrong candidate fails whenever the
digests of the two (72-byte-truncated) encoded secrets differ — the
event whose complement is the "overwhelming probability" caveat, and which
can only hold when the secrets differ within their first 72 bytes.  In
particular the case-differing candidate of the spec's end-to-end scenario
is rejected. -/
theorem C5_theorem (digest : Bytes → SaltSpec → Bytes) (rc : Bytes)
    (s1 s2 : String) (hne : s1 ≠ s2) (hrc : ValidSalt rc)
    (h10 : 0 ∉ utf8Encode s1) (h20 : 0 ∉ utf8Encode s2)
    (hd1 : 0 ∉ digest ((utf8Encode s1).take 72) ⟨98, 12, rc⟩)
    (hdig : digest ((utf8Encode s2).take 72) ⟨98, 12, rc⟩ ≠
      digest ((utf8Encode s1).take 72) ⟨98, 12, rc⟩) :
    crossCheck digest rc s1 s2 = Except.ok false := by
  have hspec := validSpec_of_validSalt hrc
  have htok : 0 ∉ formatToken ⟨98, 12, rc⟩
      (digest ((utf8Encode s1).take 72) ⟨98, 12, rc⟩) :=
    zero_notin_formatToken hspec hd1
  unfold crossCheck
  rw [hash_password_ok digest s1 h10 hrc]
  show is_valid digest _ s2 = Except.ok false
  unfold is_valid checkpw
  rw [if_neg (by rintro (h | h) <;> [exact h20 h; exact htok h])]
  unfold hashpw
  rw [if_neg (by rintro (h | h) <;> [exact h20 h; exact htok h])]
  rw [parseSalt_formatToken _ hspec]
  simp only [Except.ok.injEq, beq_eq_false_iff_ne, ne_eq]
  intro h
  simp only [formatToken, List.cons.injEq] at h
  obtain ⟨-, -, -, -, -, -, -, happ⟩ := h
  exact hdig (List.append_cancel_left happ)

/-- Witness for `C5_theorem` at the spec's end-to-end scenario. -/
theorem C5_witness :
    ("correct horse battery staple" : String) ≠ "Correct Horse Battery Staple" ∧
      crossCheck sampleDigest sampleSalt "correct horse battery staple"
        "Correct Horse Battery Staple" = Except.ok false :=
  ⟨by decide,
    C5_theorem sampleDigest sampleSalt "correct horse battery staple"
      "Correct Horse Battery Staple" (by decide) (by decide) (by decide)
      (by decide) (by decide) (by decide)⟩

/-- C6: constructing a Session Record with `session_id = "abc123"` and
`user_id = "42"` succeeds, and the two accessors return exactly those
supplied values. -/
theorem C6_theorem :
    ∃ u, UserSession.init
        [("session_id", Option.some "abc123"), ("user_id", Option.some "42")] =
          Except.ok u ∧
      (applySessionOp u SessionOp.getUserId).2 = Option.some "42" ∧
      (applySessionOp u SessionOp.getSessionId).2 = Option.some "abc123" :=
  ⟨⟨Option.some "42", Option.some "abc123"⟩, by decide, rfl, rfl⟩

/-- C8: a Session Record is immutable after construction — every operation
the component exposes (the two accessors) returns the record unchanged. -/
theorem C8_theorem (u : UserSession) (op : SessionOp) :
    (applySessionOp u op).1 = u := by
  cases op <;> rfl

/-- C9: `hash_password` accepts the empty string, and the round trip holds
for it: `is_valid(hash_password(""), "")` returns true, for every digest,
well-formed fresh salt and NUL-free digest output. -/
theorem C9_theorem (digest : Bytes → SaltSpec → Bytes) (rc : Bytes)
    (hrc : ValidSalt rc) (hd : 0 ∉ digest [] ⟨98, 12, rc⟩) :
    roundTrip digest rc "" = Except.ok true := by
  have h0 : (utf8Encode "").take 72 = [] := rfl
  exact roundTrip_ok digest "" (by rintro ⟨⟩) hrc (by rw [h0]; exact hd)

/-- Witness for `C9_theorem` at concrete inputs. -/
theorem C9_witness :
    ValidSalt sampleSalt ∧ 0 ∉ sampleDigest [] ⟨98, 12, sampleSalt⟩ ∧
      roundTrip sampleDigest sampleSalt "" = Except.ok true :=
  ⟨by decide, by decide, C9_theorem sampleDigest sampleSalt (by decide) (by decide)⟩

/-- C10 fails as stated: with field `"a=a"`, separator `"a"`, redaction `""`
(which contains no occurrence of the separator) and message `"a=a=xa=y"`,
the first application yields `"a=a=a=y"` and the second `"a=a=a="` — the
redaction-free replacement lets a second pass match across the boundary of
a replaced region. -/
theorem C10_counterexample :
    (∀ c ∈ ([] : List Char), c ∉ ['a']) ∧
      filter_datum [['a', '=', 'a']] []
          ['a', '=', 'a', '=', 'x', 'a', '=', 'y'] ['a'] =
        ['a', '=', 'a', '=', 'a', '=', 'y'] ∧
      filter_datum [['a', '=', 'a']] []
          (filter_datum [['a', '=', 'a']] []
            ['a', '=', 'a', '=', 'x', 'a', '=', 'y'] ['a']) ['a'] ≠
        filter_datum [['a', '=', 'a']] []
          ['a', '=', 'a', '=', 'x', 'a', '=', 'y'] ['a'] := by
  refine ⟨by simp, by decide, by decide⟩

/-- C10 (amended): `filter_datum` is idempotent for every message whenever
the separator is nonempty and free of `'='`, every field is plain
(nonempty, no regex metacharacter, no separator character, no `'='`), and
the redaction contains no separator character, no `'='` and no backslash. -/
theorem C10_theorem (fields : List (List Char))
    (redaction message separator : List Char)
    (hsep : separator ≠ []) (hsepeq : ('=' : Char) ∉ separator)
    (hfields : ∀ f ∈ fields, PlainField separator f)
    (hred : PlainRedaction separator redaction) :
    filter_datum fields redaction
        (filter_datum fields redaction message separator) separator =
      filter_datum fields redaction message separator :=
  filter_datum_idem hsepeq hred hfields message

/-- Witness for `C10_theorem` at the repository's own configuration
(PII field names, redaction `"***"`, separator `";"`). -/
theorem C10_witness :
    ([';'] : List Char) ≠ [] ∧ ('=' : Char) ∉ [';'] ∧
      (∀ f ∈ [['n', 'a', 'm', 'e'], ['e', 'm', 'a', 'i', 'l']],
        PlainField [';'] f) ∧
      PlainRedaction [';'] ['*', '*', '*'] ∧
      filter_datum [['n', 'a', 'm', 'e'], ['e', 'm', 'a', 'i', 'l']]
          ['*', '*', '*']
          (filter_datum [['n', 'a', 'm', 'e'], ['e', 'm', 'a', 'i', 'l']]
            ['*', '*', '*']
            ['n', 'a', 'm', 'e', '=', 'b', 'o', 'b', ';',
              'e', 'm', 'a', 'i', 'l', '=', 'x', '@', 'y', ';', 'z'] [';'])
          [';'] =
        filter_datum [['n', 'a', 'm', 'e'], ['e', 'm', 'a', 'i', 'l']]
          ['*', '*', '*']
          ['n', 'a', 'm', 'e', '=', 'b', 'o', 'b', ';',
            'e', 'm', 'a', 'i', 'l', '=', 'x', '@', 'y', ';', 'z'] [';'] :=
  ⟨by decide, by decide, by decide, by decide,
    C10_theorem [['n', 'a', 'm', 'e'], ['e', 'm', 'a', 'i', 'l']]
      ['*', '*', '*']
      ['n', 'a', 'm', 'e', '=', 'b', 'o', 'b', ';',
        'e', 'm', 'a', 'i', 'l', '=', 'x', '@', 'y', ';', 'z'] [';']
      (by decide) (by decide) (by decide) (by decide)⟩
